import Mathlib

/-!
Shallow embedding of the TwitchBotanist chat-line parsing core
(src/chatbot/src/connect/mod.rs): the tag parser `parse_tags`, the
command parser `Command::new` and the line parser `EventContent::new`.

Rust strings are modelled as `List Char`; byte indices of the original
code are modelled faithfully via UTF-8 byte sizes (`Char.utf8Size`),
and every byte-range slice the code takes is modelled by a function
that fails (modelling a Rust panic, surfaced as `Except.error ()`)
whenever the range is not aligned to character boundaries or is out of
range.  Parse failure (`Option::None` in the code) is `Except.ok none`.
-/

namespace TwitchBotanist

/-- Total UTF-8 byte length of a character list (Rust `str::len`). -/
def utf8Len : List Char → Nat
  | [] => 0
  | c :: cs => c.utf8Size + utf8Len cs

/-- `charIndicesAux n cs` pairs every character of `cs` with its byte
index, starting at byte offset `n` (Rust `str::char_indices`). -/
def charIndicesAux : Nat → List Char → List (Nat × Char)
  | _, [] => []
  | n, c :: cs => (n, c) :: charIndicesAux (n + c.utf8Size) cs

/-- Rust `str::char_indices`: characters paired with byte offsets. -/
def charIndices (cs : List Char) : List (Nat × Char) := charIndicesAux 0 cs

/-- Drop the first `n` BYTES of a string; `none` when `n` is not on a
character boundary or exceeds the length (Rust `&s[n..]`, which panics
in those cases). -/
def dropBytes : List Char → Nat → Option (List Char)
  | cs, 0 => some cs
  | [], _ + 1 => none
  | c :: cs, n + 1 =>
      if c.utf8Size ≤ n + 1 then dropBytes cs (n + 1 - c.utf8Size) else none

/-- Take the first `n` BYTES of a string; `none` when `n` is not on a
character boundary or exceeds the length. -/
def takeBytes : List Char → Nat → Option (List Char)
  | _, 0 => some []
  | [], _ + 1 => none
  | c :: cs, n + 1 =>
      if c.utf8Size ≤ n + 1 then (takeBytes cs (n + 1 - c.utf8Size)).map (c :: ·)
      else none

/-- Rust byte-range slice `&s[a..b]`: `none` models the panic (range
inverted, out of bounds, or not on character boundaries). -/
def sliceB (cs : List Char) (a b : Nat) : Option (List Char) :=
  if a ≤ b then (dropBytes cs a).bind (fun t => takeBytes t (b - a)) else none

/-- Rust `str::split(sep)` on a single-character separator; always
returns at least one (possibly empty) piece. -/
def splitOn (sep : Char) : List Char → List (List Char)
  | [] => [[]]
  | c :: cs =>
      if c = sep then [] :: splitOn sep cs
      else
        match splitOn sep cs with
        | [] => [[c]]
        | s :: ss => (c :: s) :: ss

/-- Rust `char::is_whitespace`: the Unicode `White_Space` property. -/
def rustIsWhitespace (c : Char) : Bool :=
  c = '\t' || c = '\n' || c = '\u000B' || c = '\u000C' || c = '\u000D' ||
  c = ' ' || c = '\u0085' || c = '\u00A0' || c = '\u1680' ||
  (decide ('\u2000' ≤ c) && decide (c ≤ '\u200A')) ||
  c = '\u2028' || c = '\u2029' || c = '\u202F' || c = '\u205F' || c = '\u3000'

/-- Rust `str::trim`: remove leading and trailing whitespace. -/
def trimChars (cs : List Char) : List Char :=
  ((cs.dropWhile rustIsWhitespace).reverse.dropWhile rustIsWhitespace).reverse

/-- The model of Rust's `HashMap<String, String>` as an association
list whose keys are unique: `mapInsert` overwrites the value of an
existing key in place and appends a fresh key at the end. -/
abbrev TagMap := List (List Char × List Char)

/-- `HashMap::insert`: overwrite the value when the key is present,
otherwise add the binding. -/
def mapInsert (m : TagMap) (k v : List Char) : TagMap :=
  if m.any (fun p => decide (p.1 = k)) then
    m.map (fun p => if p.1 = k then (k, v) else p)
  else m ++ [(k, v)]

/-- `HashMap::get`: the value bound to `k`, if any. -/
def mapLookup : TagMap → List Char → Option (List Char)
  | [], _ => none
  | (k, v) :: m, q => if k = q then some v else mapLookup m q

/-- `Iterator::collect::<HashMap<_, _>>()`: fold the pairs into the map
with `mapInsert`, so a later binding overwrites an earlier one. -/
def hashMapCollect (l : List (List Char × List Char)) : TagMap :=
  l.foldl (fun m p => mapInsert m p.1 p.2) []

/-- The closure inside `parse_tags`: split one `;`-segment on `=` and
take the first two pieces (`next().unwrap_or_default()` twice). -/
def segPair (seg : List Char) : List Char × List Char :=
  match splitOn '=' seg with
  | [] => ([], [])
  | [k] => (k, [])
  | k :: v :: _ => (k, v)

/-- The key-value pairs produced by `parse_tags` before collecting. -/
def tagPairs (ts : List Char) : List (List Char × List Char) :=
  (splitOn ';' ts).map segPair

/-- `fn parse_tags(tags_string: &str) -> HashMap<String, String>`. -/
def parse_tags (ts : List Char) : TagMap :=
  hashMapCollect (tagPairs ts)

/-- `enum CommandType { Help, Info, Slap }`. -/
inductive CommandType
  | Help
  | Info
  | Slap
deriving DecidableEq, Repr

/-- `struct Command` (the field name `commmand_type` is the source's). -/
structure Command where
  commmand_type : CommandType
  options : List (List Char)
  user_name : List Char
deriving DecidableEq, Repr

/-- `struct TextMessage`. -/
structure TextMessage where
  text : List Char
  user_name : List Char
deriving DecidableEq, Repr

/-- `enum EventContent`. -/
inductive EventContent
  | TextMessage (msg : TwitchBotanist.TextMessage)
  | Command (cmd : TwitchBotanist.Command)
  | Part (user_name : List Char)
  | Join (user_name : List Char)
deriving DecidableEq, Repr

/-- The author string carried by an event. -/
def authorOf : EventContent → List Char
  | .TextMessage m => m.user_name
  | .Command c => c.user_name
  | .Part u => u
  | .Join u => u

/-- `Command::new(text, user_name)`.  `Except.error ()` models the
panic of the byte slice `&words.next()?[1..]`; `ok none` is `None`. -/
def commandNew (text : List Char) (user_name : List Char) :
    Except Unit (Option Command) :=
  match text with
  | '!' :: _ =>
      match splitOn ' ' text with
      | [] => .ok none
      | w :: rest =>
          match dropBytes w 1 with
          | none => .error ()
          | some name =>
              if name = "help".data then
                .ok (some ⟨CommandType.Help, rest, user_name⟩)
              else if name = "info".data then
                .ok (some ⟨CommandType.Info, rest, user_name⟩)
              else if name = "slap".data then
                .ok (some ⟨CommandType.Slap, rest, user_name⟩)
              else .ok none
  | _ => .ok none

/-- `enum ParsingState` of `EventContent::new`. -/
inductive PState
  | Start
  | Tags
  | UserName
  | AdditionalUserInfo
  | MessageToken
  | Channel
  | MessageBody
deriving DecidableEq, Repr

/-- The `for (i, codepoint) in message.char_indices()` loop of
`EventContent::new`, carrying the mutable locals `state`, `user_name`,
`marker` and `tags_map`.  Falling off the end of the input is
`ok none` (the function's final `None`). -/
def eventLoop (msg : List Char) :
    List (Nat × Char) → PState → List Char → Nat → TagMap →
    Except Unit (Option EventContent)
  | [], _, _, _, _ => .ok none
  | (_, c) :: rest, .Start, un, marker, tags =>
      if c = '@' then eventLoop msg rest .Tags un marker tags
      else if c = ':' then eventLoop msg rest .UserName un marker tags
      else .ok none
  | (i, c) :: rest, .Tags, un, marker, tags =>
      if c = ' ' then
        match sliceB msg 1 i with
        | none => .error ()
        | some ts => eventLoop msg rest .UserName un marker (parse_tags ts)
      else eventLoop msg rest .Tags un marker tags
  | (i, c) :: rest, .UserName, un, marker, tags =>
      if c = ' ' then .ok none
      else if c = '!' then
        match sliceB msg 1 i with
        | none => .error ()
        | some u => eventLoop msg rest .AdditionalUserInfo u marker tags
      else eventLoop msg rest .UserName un marker tags
  | (i, c) :: rest, .AdditionalUserInfo, un, marker, tags =>
      if c = ' ' then eventLoop msg rest .MessageToken un (i + 1) tags
      else eventLoop msg rest .AdditionalUserInfo un marker tags
  | (i, c) :: rest, .MessageToken, un, marker, tags =>
      if c = ' ' then
        match sliceB msg marker i with
        | none => .error ()
        | some token =>
            if token = "PRIVMSG".data then
              eventLoop msg rest .Channel un marker tags
            else if token = "JOIN".data then .ok (some (.Join un))
            else if token = "PART".data then .ok (some (.Part un))
            else .ok none
      else eventLoop msg rest .MessageToken un marker tags
  | (_, c) :: rest, .Channel, un, marker, tags =>
      if c = ':' then eventLoop msg rest .MessageBody un marker tags
      else eventLoop msg rest .Channel un marker tags
  | (i, c) :: _, .MessageBody, un, _, _ =>
      match dropBytes msg i with
      | none => .error ()
      | some suffix =>
          if c = '!' then
            match commandNew (trimChars suffix) un with
            | .error _ => .error ()
            | .ok none => .ok none
            | .ok (some cmd) => .ok (some (.Command cmd))
          else .ok (some (.TextMessage ⟨trimChars suffix, un⟩))

/-- `EventContent::new(message)`: run the loop from `Start` with
`user_name = &message[0..0]` (the empty slice) and `marker = 0`. -/
def eventContentNew (msg : List Char) : Except Unit (Option EventContent) :=
  eventLoop msg (charIndices msg) .Start [] 0 []

/-- Join argument tokens with single spaces, preceded by a space:
`joinArgs [a, b] = ' ' :: a ++ ' ' :: b`.  Used to state what a body
`!name arg1 arg2 ...` looks like as text. -/
def joinArgs (args : List (List Char)) : List Char :=
  args.foldr (fun a acc => ' ' :: (a ++ acc)) []

/-- Join segments with a separator: `joinSep ';' [a, b] = a ++ ';' :: b`. -/
def joinSep (sep : Char) : List (List Char) → List Char
  | [] => []
  | [s] => s
  | s :: ss => s ++ sep :: joinSep sep ss

/-- The last value bound to key `k` in a pair list, if any. -/
def lastValue (l : List (List Char × List Char)) (k : List Char) :
    Option (List Char) :=
  ((l.filter (fun p => decide (p.1 = k))).getLast?).map Prod.snd

/-! ### Byte-length and slicing lemmas -/

theorem utf8Len_append (a b : List Char) :
    utf8Len (a ++ b) = utf8Len a + utf8Len b := by
  induction a with
  | nil => simp [utf8Len]
  | cons c cs ih => simp [utf8Len, ih]; omega

theorem dropBytes_cons_pos (c : Char) (cs : List Char) (n : Nat) (h : 0 < n) :
    dropBytes (c :: cs) n =
      if c.utf8Size ≤ n then dropBytes cs (n - c.utf8Size) else none := by
  cases n with
  | zero => omega
  | succ k => rfl

theorem takeBytes_cons_pos (c : Char) (cs : List Char) (n : Nat) (h : 0 < n) :
    takeBytes (c :: cs) n =
      if c.utf8Size ≤ n then (takeBytes cs (n - c.utf8Size)).map (c :: ·)
      else none := by
  cases n with
  | zero => omega
  | succ k => rfl

theorem dropBytes_append (p s : List Char) :
    dropBytes (p ++ s) (utf8Len p) = some s := by
  induction p with
  | nil => simp [utf8Len, dropBytes]
  | cons c cs ih =>
      have hpos : 0 < utf8Len (c :: cs) := by
        have := Char.utf8Size_pos c
        simp [utf8Len]; omega
      rw [List.cons_append, dropBytes_cons_pos _ _ _ hpos]
      have hle : c.utf8Size ≤ utf8Len (c :: cs) := by simp [utf8Len]
      rw [if_pos hle]
      have hsub : utf8Len (c :: cs) - c.utf8Size = utf8Len cs := by
        simp [utf8Len]
      rw [hsub, ih]

theorem takeBytes_append (m s : List Char) :
    takeBytes (m ++ s) (utf8Len m) = some m := by
  induction m with
  | nil => simp [utf8Len, takeBytes]
  | cons c cs ih =>
      have hpos : 0 < utf8Len (c :: cs) := by
        have := Char.utf8Size_pos c
        simp [utf8Len]; omega
      rw [List.cons_append, takeBytes_cons_pos _ _ _ hpos]
      have hle : c.utf8Size ≤ utf8Len (c :: cs) := by simp [utf8Len]
      rw [if_pos hle]
      have hsub : utf8Len (c :: cs) - c.utf8Size = utf8Len cs := by
        simp [utf8Len]
      rw [hsub, ih]
      rfl

theorem sliceB_spec (p m s : List Char) :
    sliceB (p ++ m ++ s) (utf8Len p) (utf8Len p + utf8Len m) = some m := by
  unfold sliceB
  rw [if_pos (Nat.le_add_right _ _), List.append_assoc, dropBytes_append]
  have hsub : utf8Len p + utf8Len m - utf8Len p = utf8Len m := by omega
  simp only [Option.bind, hsub, takeBytes_append]

/-! ### `splitOn` lemmas -/

theorem splitOn_ne_nil (sep : Char) (cs : List Char) : splitOn sep cs ≠ [] := by
  cases cs with
  | nil => simp [splitOn]
  | cons c cs =>
      simp only [splitOn]
      split
      · simp
      · split <;> simp

theorem splitOn_cons_sep (sep : Char) (r : List Char) :
    splitOn sep (sep :: r) = [] :: splitOn sep r := by
  simp [splitOn]

theorem splitOn_append_of_not_mem (sep : Char) (w r : List Char) (hw : sep ∉ w)
    (h : List Char) (t : List (List Char)) (hr : splitOn sep r = h :: t) :
    splitOn sep (w ++ r) = (w ++ h) :: t := by
  induction w with
  | nil => simpa using hr
  | cons c cs ih =>
      have hc : ¬ c = sep := fun e => hw (e ▸ List.mem_cons_self c cs)
      have hcs : sep ∉ cs := fun m => hw (List.mem_cons_of_mem _ m)
      rw [List.cons_append]
      simp only [splitOn, if_neg hc, ih hcs]
      simp

theorem splitOn_of_not_mem (sep : Char) (s : List Char) (h : sep ∉ s) :
    splitOn sep s = [s] := by
  have hr : splitOn sep ([] : List Char) = [] :: [] := rfl
  have := splitOn_append_of_not_mem sep s [] h [] [] hr
  simpa using this

theorem splitOn_sep_append (sep : Char) (k r : List Char) (hk : sep ∉ k) :
    splitOn sep (k ++ sep :: r) = k :: splitOn sep r := by
  have h := splitOn_append_of_not_mem sep k (sep :: r) hk []
    (splitOn sep r) (splitOn_cons_sep sep r)
  simpa using h

theorem splitOn_words (args : List (List Char)) :
    (∀ a ∈ args, ' ' ∉ a) → ∀ w : List Char, ' ' ∉ w →
    splitOn ' ' (w ++ joinArgs args) = w :: args := by
  induction args with
  | nil =>
      intro _ w hw
      show splitOn ' ' (w ++ []) = [w]
      rw [List.append_nil]
      exact splitOn_of_not_mem ' ' w hw
  | cons a as ih =>
      intro ha w hw
      show splitOn ' ' (w ++ ' ' :: (a ++ joinArgs as)) = w :: a :: as
      rw [splitOn_sep_append ' ' w _ hw]
      have ha' : ∀ x ∈ as, ' ' ∉ x := fun x hx => ha x (List.mem_cons_of_mem _ hx)
      rw [ih ha' a (ha a (List.mem_cons_self a as))]

theorem splitOn_joinSep (sep : Char) :
    ∀ segs : List (List Char), segs ≠ [] → (∀ s ∈ segs, sep ∉ s) →
    splitOn sep (joinSep sep segs) = segs
  | [], h, _ => absurd rfl h
  | [s], _, hm => by
      show splitOn sep s = [s]
      exact splitOn_of_not_mem sep s (hm s (by simp))
  | s :: s2 :: ss, _, hm => by
      show splitOn sep (s ++ sep :: joinSep sep (s2 :: ss)) = s :: s2 :: ss
      rw [splitOn_sep_append sep s _ (hm s (by simp))]
      rw [splitOn_joinSep sep (s2 :: ss) (by simp)
        (fun x hx => hm x (List.mem_cons_of_mem _ hx))]

/-! ### Map (HashMap model) lemmas -/

theorem mapLookup_append (m m2 : TagMap) (k : List Char) :
    mapLookup (m ++ m2) k =
      match mapLookup m k with
      | some v => some v
      | none => mapLookup m2 k := by
  induction m with
  | nil => simp [mapLookup]
  | cons p m ih =>
      obtain ⟨a, b⟩ := p
      by_cases h : a = k <;> simp [mapLookup, h, ih]

theorem mapLookup_replace_eq (k0 v0 : List Char) :
    ∀ m : TagMap, m.any (fun p => decide (p.1 = k0)) = true →
    mapLookup (m.map fun p => if p.1 = k0 then (k0, v0) else p) k0 = some v0 := by
  intro m
  induction m with
  | nil => simp
  | cons p m ih =>
      obtain ⟨a, b⟩ := p
      intro hany
      simp only [List.map_cons]
      by_cases h : a = k0
      · rw [if_pos h]
        simp [mapLookup]
      · rw [if_neg h]
        simp only [mapLookup, if_neg h]
        exact ih (by simpa [h] using hany)

theorem mapLookup_replace_ne (k0 v0 k : List Char) (hk : ¬ k0 = k) :
    ∀ m : TagMap,
    mapLookup (m.map fun p => if p.1 = k0 then (k0, v0) else p) k =
      mapLookup m k := by
  intro m
  induction m with
  | nil => simp [mapLookup]
  | cons p m ih =>
      obtain ⟨a, b⟩ := p
      simp only [List.map_cons]
      by_cases h : a = k0
      · rw [if_pos h]
        have ha : ¬ a = k := by rw [h]; exact hk
        simp only [mapLookup, if_neg hk, if_neg ha]
        exact ih
      · rw [if_neg h]
        simp only [mapLookup]
        by_cases h2 : a = k
        · simp [h2]
        · simp only [if_neg h2]
          exact ih

theorem mapLookup_none_of_not_any (k0 : List Char) :
    ∀ m : TagMap, ¬ m.any (fun p => decide (p.1 = k0)) = true →
    mapLookup m k0 = none := by
  intro m
  induction m with
  | nil => intro _; rfl
  | cons p m ih =>
      obtain ⟨a, b⟩ := p
      intro hany
      have h : ¬ a = k0 := by
        intro e; exact hany (by simp [e])
      simp only [mapLookup, if_neg h]
      exact ih fun h2 => hany (by simp [h2])

theorem mapLookup_mapInsert (m : TagMap) (k0 v0 k : List Char) :
    mapLookup (mapInsert m k0 v0) k =
      if k0 = k then some v0 else mapLookup m k := by
  unfold mapInsert
  by_cases hany : m.any (fun p => decide (p.1 = k0)) = true
  · rw [if_pos hany]
    by_cases hk : k0 = k
    · subst hk
      rw [if_pos rfl, mapLookup_replace_eq k0 v0 m hany]
    · rw [if_neg hk, mapLookup_replace_ne k0 v0 k hk m]
  · rw [if_neg hany, mapLookup_append]
    by_cases hk : k0 = k
    · subst hk
      rw [if_pos rfl, mapLookup_none_of_not_any k0 m hany]
      simp [mapLookup]
    · rw [if_neg hk]
      cases h : mapLookup m k <;> simp [mapLookup, hk]

theorem lastValue_concat (l : List (List Char × List Char))
    (k0 v0 k : List Char) :
    lastValue (l ++ [(k0, v0)]) k =
      if k0 = k then some v0 else lastValue l k := by
  unfold lastValue
  rw [List.filter_append]
  by_cases h : k0 = k
  · subst h
    simp [List.filter]
  · simp [List.filter, h]

theorem mapLookup_hashMapCollect (l : List (List Char × List Char))
    (k : List Char) :
    mapLookup (hashMapCollect l) k = lastValue l k := by
  induction l using List.reverseRecOn with
  | nil => rfl
  | append_singleton l p ih =>
      obtain ⟨k0, v0⟩ := p
      unfold hashMapCollect at *
      rw [List.foldl_append]
      simp only [List.foldl]
      rw [mapLookup_mapInsert, lastValue_concat, ih]

/-! ### State-machine scanning lemmas

Each lemma runs one state of `eventLoop` across the span of characters
that state consumes, for an input laid out as that span followed by the
delimiter the state is waiting for. -/

theorem scan_channel (msg : List Char) :
    ∀ ch : List Char, ':' ∉ ch →
    ∀ (n : Nat) (r un : List Char) (m : Nat) (t : TagMap),
    eventLoop msg (charIndicesAux n (ch ++ ':' :: r)) .Channel un m t =
      eventLoop msg (charIndicesAux (n + utf8Len ch + 1) r)
        .MessageBody un m t := by
  intro ch
  induction ch with
  | nil =>
      intro _ n r un m t
      show eventLoop msg (charIndicesAux n (':' :: r)) .Channel un m t = _
      have h1 : (':').utf8Size = 1 := rfl
      simp only [charIndicesAux, eventLoop, if_pos rfl, if_true, utf8Len, h1,
        Nat.add_zero]
  | cons c cs ih =>
      intro h n r un m t
      have hc : ¬ c = ':' := fun e => h (e ▸ List.mem_cons_self c cs)
      have hcs : ':' ∉ cs := fun hm => h (List.mem_cons_of_mem _ hm)
      rw [List.cons_append]
      simp only [charIndicesAux, eventLoop, if_neg hc]
      rw [ih hcs (n + c.utf8Size) r un m t]
      have harith : n + c.utf8Size + utf8Len cs = n + utf8Len (c :: cs) := by
        simp [utf8Len]; omega
      rw [harith]

theorem scan_addInfo (msg : List Char) :
    ∀ info : List Char, ' ' ∉ info →
    ∀ (n : Nat) (r un : List Char) (m : Nat) (t : TagMap),
    eventLoop msg (charIndicesAux n (info ++ ' ' :: r))
        .AdditionalUserInfo un m t =
      eventLoop msg (charIndicesAux (n + utf8Len info + 1) r)
        .MessageToken un (n + utf8Len info + 1) t := by
  intro info
  induction info with
  | nil =>
      intro _ n r un m t
      show eventLoop msg (charIndicesAux n (' ' :: r)) .AdditionalUserInfo un m t = _
      have h1 : (' ').utf8Size = 1 := rfl
      simp only [charIndicesAux, eventLoop, if_pos rfl, if_true, utf8Len, h1,
        Nat.add_zero]
  | cons c cs ih =>
      intro h n r un m t
      have hc : ¬ c = ' ' := fun e => h (e ▸ List.mem_cons_self c cs)
      have hcs : ' ' ∉ cs := fun hm => h (List.mem_cons_of_mem _ hm)
      rw [List.cons_append]
      simp only [charIndicesAux, eventLoop, if_neg hc]
      rw [ih hcs (n + c.utf8Size) r un m t]
      have harith : n + c.utf8Size + utf8Len cs = n + utf8Len (c :: cs) := by
        simp [utf8Len]; omega
      rw [harith]

theorem scan_userName (msg : List Char) :
    ∀ name : List Char, '!' ∉ name → ' ' ∉ name →
    ∀ (n : Nat) (r un : List Char) (m : Nat) (t : TagMap),
    eventLoop msg (charIndicesAux n (name ++ '!' :: r)) .UserName un m t =
      match sliceB msg 1 (n + utf8Len name) with
      | none => .error ()
      | some u =>
          eventLoop msg (charIndicesAux (n + utf8Len name + 1) r)
            .AdditionalUserInfo u m t := by
  intro name
  induction name with
  | nil =>
      intro _ _ n r un m t
      show eventLoop msg (charIndicesAux n ('!' :: r)) .UserName un m t = _
      have h1 : ('!').utf8Size = 1 := rfl
      have h2 : ¬ ('!' : Char) = ' ' := by decide
      simp only [charIndicesAux, eventLoop, if_neg h2, if_pos rfl, if_true,
        utf8Len, h1, Nat.add_zero]
  | cons c cs ih =>
      intro h1 h2 n r un m t
      have hc1 : ¬ c = ' ' := fun e => h2 (e ▸ List.mem_cons_self c cs)
      have hc2 : ¬ c = '!' := fun e => h1 (e ▸ List.mem_cons_self c cs)
      have h1' : '!' ∉ cs := fun hm => h1 (List.mem_cons_of_mem _ hm)
      have h2' : ' ' ∉ cs := fun hm => h2 (List.mem_cons_of_mem _ hm)
      rw [List.cons_append]
      simp only [charIndicesAux, eventLoop, if_neg hc1, if_neg hc2]
      rw [ih h1' h2' (n + c.utf8Size) r un m t]
      have harith : n + c.utf8Size + utf8Len cs = n + utf8Len (c :: cs) := by
        simp [utf8Len]; omega
      rw [harith]

theorem scan_tags (msg : List Char) :
    ∀ tg : List Char, ' ' ∉ tg →
    ∀ (n : Nat) (r un : List Char) (m : Nat) (t : TagMap),
    eventLoop msg (charIndicesAux n (tg ++ ' ' :: r)) .Tags un m t =
      match sliceB msg 1 (n + utf8Len tg) with
      | none => .error ()
      | some ts =>
          eventLoop msg (charIndicesAux (n + utf8Len tg + 1) r)
            .UserName un m (parse_tags ts) := by
  intro tg
  induction tg with
  | nil =>
      intro _ n r un m t
      show eventLoop msg (charIndicesAux n (' ' :: r)) .Tags un m t = _
      have h1 : (' ').utf8Size = 1 := rfl
      simp only [charIndicesAux, eventLoop, if_pos rfl, if_true, utf8Len, h1,
        Nat.add_zero]
  | cons c cs ih =>
      intro h n r un m t
      have hc : ¬ c = ' ' := fun e => h (e ▸ List.mem_cons_self c cs)
      have hcs : ' ' ∉ cs := fun hm => h (List.mem_cons_of_mem _ hm)
      rw [List.cons_append]
      simp only [charIndicesAux, eventLoop, if_neg hc]
      rw [ih hcs (n + c.utf8Size) r un m t]
      have harith : n + c.utf8Size + utf8Len cs = n + utf8Len (c :: cs) := by
        simp [utf8Len]; omega
      rw [harith]

theorem scan_msgToken (msg : List Char) :
    ∀ tok : List Char, ' ' ∉ tok →
    ∀ (n : Nat) (r un : List Char) (m : Nat) (t : TagMap),
    eventLoop msg (charIndicesAux n (tok ++ ' ' :: r)) .MessageToken un m t =
      match sliceB msg m (n + utf8Len tok) with
      | none => .error ()
      | some token =>
          if token = "PRIVMSG".data then
            eventLoop msg (charIndicesAux (n + utf8Len tok + 1) r)
              .Channel un m t
          else if token = "JOIN".data then .ok (some (.Join un))
          else if token = "PART".data then .ok (some (.Part un))
          else .ok none := by
  intro tok
  induction tok with
  | nil =>
      intro _ n r un m t
      show eventLoop msg (charIndicesAux n (' ' :: r)) .MessageToken un m t = _
      have h1 : (' ').utf8Size = 1 := rfl
      simp only [charIndicesAux, eventLoop, if_pos rfl, if_true, utf8Len, h1,
        Nat.add_zero]
  | cons c cs ih =>
      intro h n r un m t
      have hc : ¬ c = ' ' := fun e => h (e ▸ List.mem_cons_self c cs)
      have hcs : ' ' ∉ cs := fun hm => h (List.mem_cons_of_mem _ hm)
      rw [List.cons_append]
      simp only [charIndicesAux, eventLoop, if_neg hc]
      rw [ih hcs (n + c.utf8Size) r un m t]
      have harith : n + c.utf8Size + utf8Len cs = n + utf8Len (c :: cs) := by
        simp [utf8Len]; omega
      rw [harith]

theorem scan_userName_slice (msg name : List Char) (h1 : '!' ∉ name)
    (h2 : ' ' ∉ name) (n : Nat) (r un u : List Char) (m : Nat) (t : TagMap)
    (hs : sliceB msg 1 (n + utf8Len name) = some u) :
    eventLoop msg (charIndicesAux n (name ++ '!' :: r)) .UserName un m t =
      eventLoop msg (charIndicesAux (n + utf8Len name + 1) r)
        .AdditionalUserInfo u m t := by
  rw [scan_userName msg name h1 h2 n r un m t, hs]

theorem scan_tags_slice (msg tg : List Char) (h : ' ' ∉ tg) (n : Nat)
    (r un ts : List Char) (m : Nat) (t : TagMap)
    (hs : sliceB msg 1 (n + utf8Len tg) = some ts) :
    eventLoop msg (charIndicesAux n (tg ++ ' ' :: r)) .Tags un m t =
      eventLoop msg (charIndicesAux (n + utf8Len tg + 1) r)
        .UserName un m (parse_tags ts) := by
  rw [scan_tags msg tg h n r un m t, hs]

theorem scan_msgToken_slice (msg tok : List Char) (h : ' ' ∉ tok) (n : Nat)
    (r un token : List Char) (m : Nat) (t : TagMap)
    (hs : sliceB msg m (n + utf8Len tok) = some token) :
    eventLoop msg (charIndicesAux n (tok ++ ' ' :: r)) .MessageToken un m t =
      (if token = "PRIVMSG".data then
        eventLoop msg (charIndicesAux (n + utf8Len tok + 1) r) .Channel un m t
      else if token = "JOIN".data then .ok (some (.Join un))
      else if token = "PART".data then .ok (some (.Part un))
      else .ok none) := by
  rw [scan_msgToken msg tok h n r un m t, hs]

/-! ### Running the state machine over a whole well-formed line -/

theorem parse_to_verb (name info tok r : List Char)
    (hn1 : '!' ∉ name) (hn2 : ' ' ∉ name) (hi : ' ' ∉ info) (ht : ' ' ∉ tok) :
    eventContentNew (':' :: name ++ '!' :: info ++ ' ' :: tok ++ ' ' :: r) =
      if tok = "PRIVMSG".data then
        eventLoop (':' :: name ++ '!' :: info ++ ' ' :: tok ++ ' ' :: r)
          (charIndicesAux (1 + utf8Len name + 1 + utf8Len info + 1 + utf8Len tok + 1) r)
          .Channel name (1 + utf8Len name + 1 + utf8Len info + 1) []
      else if tok = "JOIN".data then .ok (some (.Join name))
      else if tok = "PART".data then .ok (some (.Part name))
      else .ok none := by
  have hcol : (':').utf8Size = 1 := rfl
  have hbang : ('!').utf8Size = 1 := rfl
  have hsp : (' ').utf8Size = 1 := rfl
  have hone : utf8Len [':'] = 1 := rfl
  -- step through Start
  unfold eventContentNew charIndices
  simp only [List.cons_append, List.append_assoc]
  have hne : ¬ (':' : Char) = '@' := by decide
  simp only [charIndicesAux, eventLoop, if_neg hne, if_pos rfl, if_true, hcol,
    Nat.zero_add]
  -- UserName
  have hs1 : sliceB (':' :: name ++ '!' :: info ++ ' ' :: tok ++ ' ' :: r) 1
      (1 + utf8Len name) = some name := by
    have h := sliceB_spec [':'] name ('!' :: info ++ ' ' :: tok ++ ' ' :: r)
    rw [hone] at h
    have e : [':'] ++ name ++ ('!' :: info ++ ' ' :: tok ++ ' ' :: r) =
        ':' :: name ++ '!' :: info ++ ' ' :: tok ++ ' ' :: r := by simp
    rw [e] at h
    exact h
  simp only [List.cons_append, List.append_assoc] at hs1
  rw [scan_userName_slice _ name hn1 hn2 1 _ [] name 0 [] hs1]
  -- AdditionalUserInfo
  rw [scan_addInfo _ info hi (1 + utf8Len name + 1) _ name 0 []]
  -- MessageToken
  have hs2 : sliceB (':' :: name ++ '!' :: info ++ ' ' :: tok ++ ' ' :: r)
      (1 + utf8Len name + 1 + utf8Len info + 1)
      (1 + utf8Len name + 1 + utf8Len info + 1 + utf8Len tok) = some tok := by
    have h := sliceB_spec (':' :: name ++ '!' :: info ++ [' ']) tok (' ' :: r)
    have hp : utf8Len (':' :: name ++ '!' :: info ++ [' ']) =
        1 + utf8Len name + 1 + utf8Len info + 1 := by
      show utf8Len (':' :: (name ++ ('!' :: info) ++ [' '])) = _
      simp only [utf8Len, utf8Len_append, hcol, hbang, hsp]
      omega
    rw [hp] at h
    have e : (':' :: name ++ '!' :: info ++ [' ']) ++ tok ++ (' ' :: r) =
        ':' :: name ++ '!' :: info ++ ' ' :: tok ++ ' ' :: r := by simp
    rw [e] at h
    exact h
  simp only [List.cons_append, List.append_assoc] at hs2
  rw [scan_msgToken_slice _ tok ht (1 + utf8Len name + 1 + utf8Len info + 1) r
    name tok (1 + utf8Len name + 1 + utf8Len info + 1) [] hs2]

theorem parse_privmsg (name info chan : List Char) (c0 : Char)
    (body : List Char) (hn1 : '!' ∉ name) (hn2 : ' ' ∉ name)
    (hi : ' ' ∉ info) (hch : ':' ∉ chan) :
    eventContentNew (':' :: name ++ '!' :: info ++ ' ' :: "PRIVMSG".data ++
        ' ' :: (chan ++ ':' :: c0 :: body)) =
      if c0 = '!' then
        match commandNew (trimChars (c0 :: body)) name with
        | .error _ => .error ()
        | .ok none => .ok none
        | .ok (some cmd) => .ok (some (.Command cmd))
      else .ok (some (.TextMessage ⟨trimChars (c0 :: body), name⟩)) := by
  have hcol : (':').utf8Size = 1 := rfl
  have hbang : ('!').utf8Size = 1 := rfl
  have hsp : (' ').utf8Size = 1 := rfl
  have h7 : utf8Len ("PRIVMSG".data) = 7 := rfl
  have hw : ' ' ∉ "PRIVMSG".data := by decide
  rw [parse_to_verb name info ("PRIVMSG".data) (chan ++ ':' :: c0 :: body)
    hn1 hn2 hi hw]
  rw [if_pos (rfl : "PRIVMSG".data = "PRIVMSG".data)]
  rw [scan_channel _ chan hch
    (1 + utf8Len name + 1 + utf8Len info + 1 + utf8Len "PRIVMSG".data + 1)
    (c0 :: body) name (1 + utf8Len name + 1 + utf8Len info + 1) []]
  have hd : dropBytes
      (':' :: name ++ '!' :: info ++ ' ' :: "PRIVMSG".data ++
        ' ' :: (chan ++ ':' :: c0 :: body))
      (1 + utf8Len name + 1 + utf8Len info + 1 + utf8Len "PRIVMSG".data + 1 +
        utf8Len chan + 1) = some (c0 :: body) := by
    have h := dropBytes_append
      (':' :: name ++ '!' :: info ++ ' ' :: "PRIVMSG".data ++
        ' ' :: (chan ++ [':'])) (c0 :: body)
    have hp : utf8Len (':' :: name ++ '!' :: info ++ ' ' :: "PRIVMSG".data ++
        ' ' :: (chan ++ [':'])) =
        1 + utf8Len name + 1 + utf8Len info + 1 + utf8Len "PRIVMSG".data + 1 +
          utf8Len chan + 1 := by
      have e1 : ':' :: name ++ '!' :: info ++ ' ' :: "PRIVMSG".data ++
          ' ' :: (chan ++ [':']) =
          [':'] ++ name ++ ['!'] ++ info ++ [' '] ++ "PRIVMSG".data ++ [' '] ++
            chan ++ [':'] := by
        simp
      rw [e1]
      rw [utf8Len_append, utf8Len_append, utf8Len_append, utf8Len_append,
        utf8Len_append, utf8Len_append, utf8Len_append, utf8Len_append]
      have ha : utf8Len [':'] = 1 := rfl
      have hb : utf8Len ['!'] = 1 := rfl
      have hc2 : utf8Len [' '] = 1 := rfl
      simp only [ha, hb, hc2, h7]
    rw [hp] at h
    have e : (':' :: name ++ '!' :: info ++ ' ' :: "PRIVMSG".data ++
          ' ' :: (chan ++ [':'])) ++ (c0 :: body) =
        ':' :: name ++ '!' :: info ++ ' ' :: "PRIVMSG".data ++
          ' ' :: (chan ++ ':' :: c0 :: body) := by
      simp
    rw [e] at h
    exact h
  simp only [charIndicesAux, eventLoop]
  rw [hd]

/-! ### Computing `Command::new` on a bang-command body -/

theorem commandNew_known (cname : List Char) (args : List (List Char))
    (un : List Char) (hc : ' ' ∉ cname) (ha : ∀ a ∈ args, ' ' ∉ a) :
    commandNew ('!' :: (cname ++ joinArgs args)) un =
      if cname = "help".data then .ok (some ⟨.Help, args, un⟩)
      else if cname = "info".data then .ok (some ⟨.Info, args, un⟩)
      else if cname = "slap".data then .ok (some ⟨.Slap, args, un⟩)
      else .ok none := by
  have hw : ' ' ∉ ('!' :: cname) := by
    intro h
    rcases List.mem_cons.mp h with h1 | h2
    · exact absurd h1.symm (by decide)
    · exact hc h2
  have hsplit : splitOn ' ' (('!' :: cname) ++ joinArgs args) =
      ('!' :: cname) :: args :=
    splitOn_words args ha ('!' :: cname) hw
  simp only [List.cons_append] at hsplit
  have hdb : dropBytes ('!' :: cname) 1 = some cname := by
    have hb : ('!').utf8Size = 1 := rfl
    simp [dropBytes, hb]
  simp only [commandNew, hsplit, hdb]

/-! ### Case analysis of `Command::new` -/

theorem commandNew_eq_bang (t un : List Char) :
    commandNew ('!' :: t) un =
      match splitOn ' ' ('!' :: t) with
      | [] => .ok none
      | w :: rest =>
          match dropBytes w 1 with
          | none => .error ()
          | some nm =>
              if nm = "help".data then .ok (some ⟨CommandType.Help, rest, un⟩)
              else if nm = "info".data then
                .ok (some ⟨CommandType.Info, rest, un⟩)
              else if nm = "slap".data then
                .ok (some ⟨CommandType.Slap, rest, un⟩)
              else .ok none := rfl

theorem commandNew_eq_not_bang (c : Char) (t un : List Char) (h : ¬ c = '!') :
    commandNew (c :: t) un = .ok none := by
  unfold commandNew
  split
  · rename_i heq
    injection heq with h1 h2
    exact absurd h1 h
  · rfl

/-- `Command::new` never panics, and every Command it produces carries
the `user_name` it was given, unchanged. -/
theorem commandNew_cases (text un : List Char) :
    commandNew text un = .ok none ∨
    ∃ cty rest, commandNew text un = .ok (some ⟨cty, rest, un⟩) := by
  cases text with
  | nil => exact Or.inl rfl
  | cons c t =>
      by_cases hc : c = '!'
      · subst hc
        cases hsp : splitOn ' ' t with
        | nil => exact absurd hsp (splitOn_ne_nil ' ' t)
        | cons s ss =>
            have hne : ¬ ('!' : Char) = ' ' := by decide
            have hsplit : splitOn ' ' ('!' :: t) = ('!' :: s) :: ss := by
              simp only [splitOn, if_neg hne, hsp]
            have hdb : dropBytes ('!' :: s) 1 = some s := by
              have hb : ('!').utf8Size = 1 := rfl
              simp [dropBytes, hb]
            rw [commandNew_eq_bang]
            simp only [hsplit, hdb]
            by_cases h1 : s = "help".data
            · refine Or.inr ⟨.Help, ss, ?_⟩
              rw [if_pos h1]
            by_cases h2 : s = "info".data
            · refine Or.inr ⟨.Info, ss, ?_⟩
              rw [if_neg h1, if_pos h2]
            by_cases h3 : s = "slap".data
            · refine Or.inr ⟨.Slap, ss, ?_⟩
              rw [if_neg h1, if_neg h2, if_pos h3]
            refine Or.inl ?_
            rw [if_neg h1, if_neg h2, if_neg h3]
      · exact Or.inl (commandNew_eq_not_bang c t un hc)

theorem commandNew_no_panic (text un : List Char) :
    ∃ r, commandNew text un = .ok r := by
  rcases commandNew_cases text un with h | ⟨cty, rest, h⟩
  · exact ⟨none, h⟩
  · exact ⟨some ⟨cty, rest, un⟩, h⟩

theorem commandNew_user (text un : List Char) (cmd : Command)
    (h : commandNew text un = .ok (some cmd)) : cmd.user_name = un := by
  rcases commandNew_cases text un with h2 | ⟨cty, rest, h2⟩
  · rw [h] at h2
    exact absurd h2 (by simp)
  · rw [h] at h2
    injection h2 with h3
    injection h3 with h4
    rw [h4]

/-! ### Author tracking through the state machine -/

/-- From any state past `UserName` the loop never changes `user_name`
again, so any event it still produces carries exactly `un`. -/
theorem eventLoop_author (msg : List Char) :
    ∀ (l : List (Nat × Char)) (st : PState) (un : List Char) (m : Nat)
      (t : TagMap) (ev : EventContent),
    ¬ st = .Start → ¬ st = .Tags → ¬ st = .UserName →
    eventLoop msg l st un m t = .ok (some ev) → authorOf ev = un := by
  intro l
  induction l with
  | nil =>
      intro st un m t ev _ _ _ h
      simp [eventLoop] at h
  | cons p rest ih =>
      obtain ⟨i, c⟩ := p
      intro st un m t ev h1 h2 h3 h
      cases st with
      | Start => exact absurd rfl h1
      | Tags => exact absurd rfl h2
      | UserName => exact absurd rfl h3
      | AdditionalUserInfo =>
          simp only [eventLoop] at h
          by_cases hc : c = ' '
          · rw [if_pos hc] at h
            exact ih .MessageToken un (i + 1) t ev (by decide) (by decide)
              (by decide) h
          · rw [if_neg hc] at h
            exact ih .AdditionalUserInfo un m t ev (by decide) (by decide)
              (by decide) h
      | MessageToken =>
          simp only [eventLoop] at h
          by_cases hc : c = ' '
          · rw [if_pos hc] at h
            cases hs : sliceB msg m i with
            | none =>
                simp only [hs] at h
                exact Except.noConfusion h
            | some token =>
                simp only [hs] at h
                by_cases hp : token = "PRIVMSG".data
                · rw [if_pos hp] at h
                  exact ih .Channel un m t ev (by decide) (by decide)
                    (by decide) h
                · rw [if_neg hp] at h
                  by_cases hj : token = "JOIN".data
                  · rw [if_pos hj] at h
                    injection h with h4
                    injection h4 with h5
                    rw [← h5]
                    rfl
                  · rw [if_neg hj] at h
                    by_cases hq : token = "PART".data
                    · rw [if_pos hq] at h
                      injection h with h4
                      injection h4 with h5
                      rw [← h5]
                      rfl
                    · rw [if_neg hq] at h
                      injection h with h4
                      exact Option.noConfusion h4
          · rw [if_neg hc] at h
            exact ih .MessageToken un m t ev (by decide) (by decide)
              (by decide) h
      | Channel =>
          simp only [eventLoop] at h
          by_cases hc : c = ':'
          · rw [if_pos hc] at h
            exact ih .MessageBody un m t ev (by decide) (by decide)
              (by decide) h
          · rw [if_neg hc] at h
            exact ih .Channel un m t ev (by decide) (by decide) (by decide) h
      | MessageBody =>
          simp only [eventLoop] at h
          cases hd : dropBytes msg i with
          | none =>
              simp only [hd] at h
              exact Except.noConfusion h
          | some suffix =>
              simp only [hd] at h
              by_cases hc : c = '!'
              · rw [if_pos hc] at h
                cases hcmd : commandNew (trimChars suffix) un with
                | error e =>
                    simp only [hcmd] at h
                    exact Except.noConfusion h
                | ok o =>
                    cases o with
                    | none =>
                        simp only [hcmd] at h
                        injection h with h4
                        exact Option.noConfusion h4
                    | some cmd =>
                        simp only [hcmd] at h
                        injection h with h4
                        injection h4 with h5
                        rw [← h5]
                        show cmd.user_name = un
                        exact commandNew_user _ un cmd hcmd
              · rw [if_neg hc] at h
                injection h with h4
                injection h4 with h5
                rw [← h5]
                rfl

/-- In the `UserName` state the author produced later is the slice
`message[1..i]`; when the byte before the scan is the single leading
1-byte character and the current character is not already `!`, that
slice is non-empty. -/
theorem eventLoop_userName_author (msg : List Char) :
    ∀ (suf pre : List Char) (c0 : Char) (p2 un : List Char) (m : Nat)
      (t : TagMap) (ev : EventContent),
    msg = pre ++ suf → pre = c0 :: p2 → c0.utf8Size = 1 →
    (p2 = [] → ¬ suf.head? = some '!') →
    eventLoop msg (charIndicesAux (utf8Len pre) suf) .UserName un m t =
      .ok (some ev) →
    ¬ authorOf ev = [] := by
  intro suf
  induction suf with
  | nil =>
      intro pre c0 p2 un m t ev _ _ _ _ h
      simp [charIndicesAux, eventLoop] at h
  | cons c cs ih =>
      intro pre c0 p2 un m t ev hmsg hpre hc0 hbang h
      simp only [charIndicesAux, eventLoop] at h
      by_cases hsp : c = ' '
      · rw [if_pos hsp] at h
        injection h with h4
        exact Option.noConfusion h4
      · by_cases hbg : c = '!'
        · rw [if_neg hsp, if_pos hbg] at h
          have hslice : sliceB msg 1 (utf8Len pre) = some p2 := by
            have h1 := sliceB_spec [c0] p2 (c :: cs)
            have e : [c0] ++ p2 ++ (c :: cs) = msg := by
              rw [hmsg, hpre]
              simp
            have e2 : utf8Len [c0] = 1 := by simp [utf8Len, hc0]
            rw [e2, e] at h1
            have e3 : utf8Len pre = 1 + utf8Len p2 := by
              rw [hpre]
              simp [utf8Len, hc0]
            rw [e3]
            exact h1
          simp only [hslice] at h
          have hau := eventLoop_author msg _ .AdditionalUserInfo p2 m t ev
            (by decide) (by decide) (by decide) h
          rw [hau]
          intro hp2
          exact (hbang hp2) (by rw [hbg]; rfl)
        · rw [if_neg hsp, if_neg hbg] at h
          refine ih (pre ++ [c]) c0 (p2 ++ [c]) un m t ev ?_ ?_ hc0 ?_ ?_
          · rw [hmsg]
            simp
          · rw [hpre]
            simp
          · intro habs
            exact absurd habs (by simp)
          · have e : utf8Len (pre ++ [c]) = utf8Len pre + c.utf8Size := by
              rw [utf8Len_append]
              simp [utf8Len]
            rw [e]
            exact h

/-- In the `Tags` state the author is still to be scanned; once the
closing space of the tags segment is consumed, the `UserName` scan
starts at byte offset at least 2, so the author slice is non-empty. -/
theorem eventLoop_tags_author (msg : List Char) :
    ∀ (suf pre : List Char) (c0 : Char) (p2 un : List Char) (m : Nat)
      (t : TagMap) (ev : EventContent),
    msg = pre ++ suf → pre = c0 :: p2 → c0.utf8Size = 1 →
    eventLoop msg (charIndicesAux (utf8Len pre) suf) .Tags un m t =
      .ok (some ev) →
    ¬ authorOf ev = [] := by
  intro suf
  induction suf with
  | nil =>
      intro pre c0 p2 un m t ev _ _ _ h
      simp [charIndicesAux, eventLoop] at h
  | cons c cs ih =>
      intro pre c0 p2 un m t ev hmsg hpre hc0 h
      simp only [charIndicesAux, eventLoop] at h
      by_cases hsp : c = ' '
      · rw [if_pos hsp] at h
        have hslice : sliceB msg 1 (utf8Len pre) = some p2 := by
          have h1 := sliceB_spec [c0] p2 (c :: cs)
          have e : [c0] ++ p2 ++ (c :: cs) = msg := by
            rw [hmsg, hpre]
            simp
          have e2 : utf8Len [c0] = 1 := by simp [utf8Len, hc0]
          rw [e2, e] at h1
          have e3 : utf8Len pre = 1 + utf8Len p2 := by
            rw [hpre]
            simp [utf8Len, hc0]
          rw [e3]
          exact h1
        simp only [hslice] at h
        refine eventLoop_userName_author msg cs (pre ++ [c]) c0 (p2 ++ [c])
          un m (parse_tags p2) ev ?_ ?_ hc0 ?_ ?_
        · rw [hmsg]
          simp
        · rw [hpre]
          simp
        · intro habs
          exact absurd habs (by simp)
        · have e : utf8Len (pre ++ [c]) = utf8Len pre + c.utf8Size := by
            rw [utf8Len_append]
            simp [utf8Len]
          rw [e]
          exact h
      · rw [if_neg hsp] at h
        refine ih (pre ++ [c]) c0 (p2 ++ [c]) un m t ev ?_ ?_ hc0 ?_
        · rw [hmsg]
          simp
        · rw [hpre]
          simp
        · have e : utf8Len (pre ++ [c]) = utf8Len pre + c.utf8Size := by
            rw [utf8Len_append]
            simp [utf8Len]
          rw [e]
          exact h

/-! ### Absence of panics: all slices hit character boundaries -/

theorem slice_one_pre (msg pre : List Char) (c0 : Char) (p2 suf : List Char)
    (hmsg : msg = pre ++ suf) (hpre : pre = c0 :: p2) (hc0 : c0.utf8Size = 1) :
    sliceB msg 1 (utf8Len pre) = some p2 := by
  have h1 := sliceB_spec [c0] p2 suf
  have e : [c0] ++ p2 ++ suf = msg := by
    rw [hmsg, hpre]
    simp
  have e2 : utf8Len [c0] = 1 := by simp [utf8Len, hc0]
  rw [e2, e] at h1
  have e3 : utf8Len pre = 1 + utf8Len p2 := by
    rw [hpre]
    simp [utf8Len, hc0]
  rw [e3]
  exact h1

/-- The loop never returns the panic marker: every byte index it slices
with is a character boundary.  `pre` is the consumed part of the
message; past `Start` the first character of the line is a 1-byte
character, so byte 1 is a boundary; in `MessageToken` the marker is a
boundary at or before the scan position. -/
theorem eventLoop_no_panic (msg : List Char) :
    ∀ (suf pre : List Char) (st : PState) (un : List Char) (marker : Nat)
      (t : TagMap),
    msg = pre ++ suf →
    (st = .Start → pre = []) →
    (¬ st = .Start → ∃ c0 p2, pre = c0 :: p2 ∧ c0.utf8Size = 1) →
    (st = .MessageToken →
      ∃ p1 mid, pre = p1 ++ mid ∧ utf8Len p1 = marker) →
    ∃ r, eventLoop msg (charIndicesAux (utf8Len pre) suf) st un marker t =
      .ok r := by
  intro suf
  induction suf with
  | nil =>
      intro pre st un marker t _ _ _ _
      exact ⟨none, by simp [charIndicesAux, eventLoop]⟩
  | cons c cs ih =>
      intro pre st un marker t hmsg hstart hpast hmt
      have epre : utf8Len pre + c.utf8Size = utf8Len (pre ++ [c]) := by
        rw [utf8Len_append]
        simp [utf8Len]
      have hmsg2 : msg = (pre ++ [c]) ++ cs := by
        rw [hmsg]
        simp
      simp only [charIndicesAux]
      rw [epre]
      cases st with
      | Start =>
          have hpre := hstart rfl
          subst hpre
          simp only [eventLoop]
          by_cases hat : c = '@'
          · rw [if_pos hat]
            refine ih ([] ++ [c]) .Tags un marker t hmsg2
              (fun habs => absurd habs (by decide))
              (fun _ => ⟨c, [], by simp, by rw [hat]; rfl⟩)
              (fun habs => absurd habs (by decide))
          · by_cases hco : c = ':'
            · rw [if_neg hat, if_pos hco]
              refine ih ([] ++ [c]) .UserName un marker t hmsg2
                (fun habs => absurd habs (by decide))
                (fun _ => ⟨c, [], by simp, by rw [hco]; rfl⟩)
                (fun habs => absurd habs (by decide))
            · exact ⟨none, by rw [if_neg hat, if_neg hco]⟩
      | Tags =>
          obtain ⟨c0, p2, hpre, hc0⟩ := hpast (by decide)
          simp only [eventLoop]
          by_cases hsp : c = ' '
          · rw [if_pos hsp]
            have hslice := slice_one_pre msg pre c0 p2 (c :: cs) hmsg hpre hc0
            simp only [hslice]
            refine ih (pre ++ [c]) .UserName un marker (parse_tags p2) hmsg2
              (fun habs => absurd habs (by decide))
              (fun _ => ⟨c0, p2 ++ [c], by rw [hpre]; simp, hc0⟩)
              (fun habs => absurd habs (by decide))
          · rw [if_neg hsp]
            refine ih (pre ++ [c]) .Tags un marker t hmsg2
              (fun habs => absurd habs (by decide))
              (fun _ => ⟨c0, p2 ++ [c], by rw [hpre]; simp, hc0⟩)
              (fun habs => absurd habs (by decide))
      | UserName =>
          obtain ⟨c0, p2, hpre, hc0⟩ := hpast (by decide)
          simp only [eventLoop]
          by_cases hsp : c = ' '
          · exact ⟨none, by rw [if_pos hsp]⟩
          · by_cases hbg : c = '!'
            · rw [if_neg hsp, if_pos hbg]
              have hslice := slice_one_pre msg pre c0 p2 (c :: cs) hmsg hpre hc0
              simp only [hslice]
              refine ih (pre ++ [c]) .AdditionalUserInfo p2 marker t hmsg2
                (fun habs => absurd habs (by decide))
                (fun _ => ⟨c0, p2 ++ [c], by rw [hpre]; simp, hc0⟩)
                (fun habs => absurd habs (by decide))
            · rw [if_neg hsp, if_neg hbg]
              refine ih (pre ++ [c]) .UserName un marker t hmsg2
                (fun habs => absurd habs (by decide))
                (fun _ => ⟨c0, p2 ++ [c], by rw [hpre]; simp, hc0⟩)
                (fun habs => absurd habs (by decide))
      | AdditionalUserInfo =>
          obtain ⟨c0, p2, hpre, hc0⟩ := hpast (by decide)
          simp only [eventLoop]
          by_cases hsp : c = ' '
          · rw [if_pos hsp]
            refine ih (pre ++ [c]) .MessageToken un (utf8Len pre + 1) t hmsg2
              (fun habs => absurd habs (by decide))
              (fun _ => ⟨c0, p2 ++ [c], by rw [hpre]; simp, hc0⟩)
              (fun _ => ⟨pre ++ [c], [], by simp, ?_⟩)
            rw [utf8Len_append, hsp]
            have hs1 : utf8Len [' '] = 1 := rfl
            rw [hs1]
          · rw [if_neg hsp]
            refine ih (pre ++ [c]) .AdditionalUserInfo un marker t hmsg2
              (fun habs => absurd habs (by decide))
              (fun _ => ⟨c0, p2 ++ [c], by rw [hpre]; simp, hc0⟩)
              (fun habs => absurd habs (by decide))
      | MessageToken =>
          obtain ⟨c0, p2, hpre, hc0⟩ := hpast (by decide)
          obtain ⟨p1, mid, hpm, hp1⟩ := hmt rfl
          simp only [eventLoop]
          by_cases hsp : c = ' '
          · rw [if_pos hsp]
            have hslice2 : sliceB msg marker (utf8Len pre) = some mid := by
              have h1 := sliceB_spec p1 mid (c :: cs)
              have e : p1 ++ mid ++ (c :: cs) = msg := by
                rw [hmsg, hpm]
              rw [e, hp1] at h1
              have e2 : utf8Len pre = marker + utf8Len mid := by
                rw [hpm, utf8Len_append, hp1]
              rw [e2]
              exact h1
            simp only [hslice2]
            by_cases hP : mid = "PRIVMSG".data
            · rw [if_pos hP]
              refine ih (pre ++ [c]) .Channel un marker t hmsg2
                (fun habs => absurd habs (by decide))
                (fun _ => ⟨c0, p2 ++ [c], by rw [hpre]; simp, hc0⟩)
                (fun habs => absurd habs (by decide))
            · by_cases hJ : mid = "JOIN".data
              · exact ⟨some (.Join un), by rw [if_neg hP, if_pos hJ]⟩
              · by_cases hQ : mid = "PART".data
                · exact ⟨some (.Part un), by rw [if_neg hP, if_neg hJ,
                    if_pos hQ]⟩
                · exact ⟨none, by rw [if_neg hP, if_neg hJ, if_neg hQ]⟩
          · rw [if_neg hsp]
            refine ih (pre ++ [c]) .MessageToken un marker t hmsg2
              (fun habs => absurd habs (by decide))
              (fun _ => ⟨c0, p2 ++ [c], by rw [hpre]; simp, hc0⟩)
              (fun _ => ⟨p1, mid ++ [c], by rw [hpm]; simp, hp1⟩)
      | Channel =>
          obtain ⟨c0, p2, hpre, hc0⟩ := hpast (by decide)
          simp only [eventLoop]
          by_cases hco : c = ':'
          · rw [if_pos hco]
            refine ih (pre ++ [c]) .MessageBody un marker t hmsg2
              (fun habs => absurd habs (by decide))
              (fun _ => ⟨c0, p2 ++ [c], by rw [hpre]; simp, hc0⟩)
              (fun habs => absurd habs (by decide))
          · rw [if_neg hco]
            refine ih (pre ++ [c]) .Channel un marker t hmsg2
              (fun habs => absurd habs (by decide))
              (fun _ => ⟨c0, p2 ++ [c], by rw [hpre]; simp, hc0⟩)
              (fun habs => absurd habs (by decide))
      | MessageBody =>
          simp only [eventLoop]
          have hd : dropBytes msg (utf8Len pre) = some (c :: cs) := by
            rw [hmsg]
            exact dropBytes_append pre (c :: cs)
          simp only [hd]
          by_cases hbg : c = '!'
          · rw [if_pos hbg]
            obtain ⟨r0, hr0⟩ := commandNew_no_panic (trimChars (c :: cs)) un
            cases r0 with
            | none => exact ⟨none, by simp only [hr0]⟩
            | some cmd => exact ⟨some (.Command cmd), by simp only [hr0]⟩
          · exact ⟨some (.TextMessage ⟨trimChars (c :: cs), un⟩),
              by rw [if_neg hbg]⟩

/-! ### Claim theorems -/

/-- Claim C1 (code bug): on the tagged line `@a=b :u!u@h PRIVMSG #c :hi`
the parser produces a TextMessage whose `user_name` is `"a=b :u"` — the
whole span from byte 1 to the first `!`, tags included — and not the
text `"u"` between the `:` prefix marker and the `!` as the claim (and
the `UserName` state's own description) requires: the hard-coded `1` in
`&message[1..i]` is only correct for untagged lines. -/
theorem C1_tagged_author_bug :
    eventContentNew ("@a=b :u!u@h PRIVMSG #c :hi".data) =
      .ok (some (.TextMessage ⟨"hi".data, "a=b :u".data⟩)) ∧
    ¬ ("a=b :u".data : List Char) = "u".data := by
  exact ⟨rfl, by decide⟩

/-- Claim C2 (corrected): when parsing produces an Event and the line
does not begin with `":!"`, the Event's author is non-empty.  (As
stated the claim is false: the author is the slice `message[1..i]` up
to the first `!` of the prefix, which is empty exactly when the `!`
sits at byte 1; parse failure still produces no event, by the type of
the result.) -/
theorem C2_author_nonempty (msg : List Char) (ev : EventContent)
    (h : eventContentNew msg = .ok (some ev))
    (h2 : ¬ msg.take 2 = [':', '!']) : ¬ authorOf ev = [] := by
  cases msg with
  | nil =>
      simp [eventContentNew, charIndices, charIndicesAux, eventLoop] at h
  | cons c cs =>
      unfold eventContentNew charIndices at h
      simp only [charIndicesAux, eventLoop] at h
      by_cases hat : c = '@'
      · rw [if_pos hat] at h
        refine eventLoop_tags_author (c :: cs) cs [c] c [] [] 0 [] ev
          rfl rfl ?_ ?_
        · rw [hat]
          rfl
        · have e : utf8Len [c] = 0 + c.utf8Size := by simp [utf8Len]
          rw [e]
          exact h
      · by_cases hco : c = ':'
        · rw [if_neg hat, if_pos hco] at h
          refine eventLoop_userName_author (c :: cs) cs [c] c [] [] 0 [] ev
            rfl rfl ?_ ?_ ?_
          · rw [hco]
            rfl
          · intro _ habs
            apply h2
            cases cs with
            | nil => exact absurd habs (by simp)
            | cons d ds =>
                simp only [List.head?] at habs
                injection habs with hd2
                rw [hco, hd2]
                rfl
          · have e : utf8Len [c] = 0 + c.utf8Size := by simp [utf8Len]
            rw [e]
            exact h
        · rw [if_neg hat, if_neg hco] at h
          injection h with h4
          exact Option.noConfusion h4

/-- Counterexample to C2 as stated: the line `":! JOIN "` parses to a
`Join` event whose author is the empty string. -/
theorem C2_counterexample :
    eventContentNew (":! JOIN ".data) = .ok (some (.Join [])) ∧
    authorOf (.Join []) = [] := ⟨rfl, rfl⟩

/-- Witness for corrected C2 at the line `":u!i JOIN "`. -/
theorem C2_author_nonempty_witness :
    ¬ authorOf (.Join "u".data) = [] :=
  C2_author_nonempty (":u!i JOIN ".data) (.Join "u".data) rfl (by decide)

/-- Claim C3: a well-formed PRIVMSG line whose body is `!` followed by a
known command name and space-separated argument tokens parses to a
Command with that name, exactly those arguments in order, and the prefix
author; moreover a body of exactly `!help` yields an empty argument
list, not `[""]`. -/
theorem C3_command (name info chan cname : List Char) (cty : CommandType)
    (args : List (List Char))
    (hn1 : '!' ∉ name) (hn2 : ' ' ∉ name) (hi : ' ' ∉ info) (hch : ':' ∉ chan)
    (hk : (cname = "help".data ∧ cty = .Help) ∨
          (cname = "info".data ∧ cty = .Info) ∨
          (cname = "slap".data ∧ cty = .Slap))
    (ha : ∀ a ∈ args, ' ' ∉ a)
    (htrim : trimChars ('!' :: (cname ++ joinArgs args)) =
      '!' :: (cname ++ joinArgs args)) :
    eventContentNew (':' :: name ++ '!' :: info ++ ' ' :: "PRIVMSG".data ++
        ' ' :: (chan ++ ':' :: '!' :: (cname ++ joinArgs args))) =
      .ok (some (.Command ⟨cty, args, name⟩)) ∧
    ∀ u : List Char, commandNew ('!' :: "help".data) u =
      .ok (some ⟨.Help, [], u⟩) := by
  constructor
  · have hc : ' ' ∉ cname := by
      rcases hk with ⟨h, _⟩ | ⟨h, _⟩ | ⟨h, _⟩ <;> subst h <;> decide
    rw [parse_privmsg name info chan '!' (cname ++ joinArgs args)
      hn1 hn2 hi hch]
    rw [if_pos rfl, htrim, commandNew_known cname args name hc ha]
    rcases hk with ⟨h1, h2⟩ | ⟨h1, h2⟩ | ⟨h1, h2⟩ <;> subst h1 <;> subst h2 <;>
      simp
  · intro u
    rfl

/-- Witness for C3: the spec's end-to-end example
`:carkhy!carkhy@carkhy.tmi.twitch.tv PRIVMSG #captaincallback :!help option1 option2`. -/
theorem C3_command_witness :
    eventContentNew (':' :: "carkhy".data ++ '!' ::
        "carkhy@carkhy.tmi.twitch.tv".data ++ ' ' :: "PRIVMSG".data ++
        ' ' :: ("#captaincallback".data ++ ':' :: '!' ::
          ("help".data ++ joinArgs ["option1".data, "option2".data]))) =
      .ok (some (.Command ⟨.Help, ["option1".data, "option2".data],
        "carkhy".data⟩)) :=
  (C3_command "carkhy".data "carkhy@carkhy.tmi.twitch.tv".data
    "#captaincallback".data "help".data .Help
    ["option1".data, "option2".data] (by decide) (by decide) (by decide)
    (by decide) (Or.inl ⟨rfl, rfl⟩) (by decide) (by decide)).1

/-- Claim C4: a PRIVMSG body that starts with the trigger `!` but whose
command name is not in the case-sensitive known set {help, info, slap}
makes the whole line parse fail: no event at all is produced. -/
theorem C4_unknown_command (name info chan cname tail2 : List Char)
    (hn1 : '!' ∉ name) (hn2 : ' ' ∉ name) (hi : ' ' ∉ info) (hch : ':' ∉ chan)
    (hc : ' ' ∉ cname)
    (hk1 : ¬ cname = "help".data) (hk2 : ¬ cname = "info".data)
    (hk3 : ¬ cname = "slap".data)
    (htail : tail2 = [] ∨ ∃ t2, tail2 = ' ' :: t2)
    (htrim : trimChars ('!' :: (cname ++ tail2)) = '!' :: (cname ++ tail2)) :
    eventContentNew (':' :: name ++ '!' :: info ++ ' ' :: "PRIVMSG".data ++
        ' ' :: (chan ++ ':' :: '!' :: (cname ++ tail2))) = .ok none := by
  rw [parse_privmsg name info chan '!' (cname ++ tail2) hn1 hn2 hi hch]
  rw [if_pos rfl, htrim]
  have hcmd : commandNew ('!' :: (cname ++ tail2)) name = .ok none := by
    rcases htail with h | ⟨t2, h⟩
    · subst h
      have e : cname ++ ([] : List Char) = cname ++ joinArgs [] := rfl
      rw [e, commandNew_known cname [] name hc (by simp), if_neg hk1,
        if_neg hk2, if_neg hk3]
    · subst h
      have hw : ' ' ∉ ('!' :: cname) := by
        intro hmem
        rcases List.mem_cons.mp hmem with h1 | h2
        · exact absurd h1.symm (by decide)
        · exact hc h2
      have hsplit := splitOn_sep_append ' ' ('!' :: cname) t2 hw
      simp only [List.cons_append] at hsplit
      have hdb : dropBytes ('!' :: cname) 1 = some cname := by
        have hb : ('!').utf8Size = 1 := rfl
        simp [dropBytes, hb]
      simp only [commandNew, hsplit, hdb, if_neg hk1, if_neg hk2, if_neg hk3]
  rw [hcmd]

/-- Witness for C4: `:u!i PRIVMSG #c :!HELP` (wrong case) yields no
event. -/
theorem C4_unknown_command_witness :
    eventContentNew (':' :: "u".data ++ '!' :: "i".data ++ ' ' ::
        "PRIVMSG".data ++ ' ' :: ("#c".data ++ ':' :: '!' ::
          ("HELP".data ++ []))) = .ok none :=
  C4_unknown_command "u".data "i".data "#c".data "HELP".data []
    (by decide) (by decide) (by decide) (by decide) (by decide)
    (by decide) (by decide) (by decide) (Or.inl rfl) (by decide)

/-- Claim C5 (corrected), counterexample: the tags segment `a=b=c`
parses with value `"b"` — the code takes only the piece between the
first and second `=` — and not `"b=c"`, everything after the first `=`,
as the claim states. -/
theorem C5_counterexample :
    parse_tags ("a=b=c".data) = [("a".data, "b".data)] ∧
    ¬ ("b".data : List Char) = "b=c".data := by
  exact ⟨rfl, by decide⟩

/-- Claim C5 as amended: the tag parser splits the tags segment on `;`
and maps `segPair` over the segments; for a segment the key is the text
before the first `=` and the value is the text between the first and the
second `=` (any text after a second `=` is discarded); a segment with no
`=` yields (segment, ""). -/
theorem C5_amended (segs : List (List Char)) (k v j : List Char)
    (hsegs : ¬ segs = []) (hs : ∀ s ∈ segs, ';' ∉ s)
    (hk : '=' ∉ k) (hv : '=' ∉ v) :
    tagPairs (joinSep ';' segs) = segs.map segPair ∧
    segPair (k ++ '=' :: (v ++ '=' :: j)) = (k, v) ∧
    segPair (k ++ '=' :: v) = (k, v) ∧
    segPair k = (k, []) := by
  refine ⟨?_, ?_, ?_, ?_⟩
  · unfold tagPairs
    rw [splitOn_joinSep ';' segs hsegs hs]
  · unfold segPair
    rw [splitOn_sep_append '=' k (v ++ '=' :: j) hk,
      splitOn_sep_append '=' v j hv]
  · unfold segPair
    rw [splitOn_sep_append '=' k v hk, splitOn_of_not_mem '=' v hv]
  · unfold segPair
    rw [splitOn_of_not_mem '=' k hk]

/-- Witness for C5 as amended, at concrete segments. -/
theorem C5_amended_witness :
    tagPairs (joinSep ';' ["x".data, "y=z".data]) =
      (["x".data, "y=z".data] : List (List Char)).map segPair ∧
    segPair ("a".data ++ '=' :: ("b".data ++ '=' :: "c".data)) =
      ("a".data, "b".data) ∧
    segPair ("a".data ++ '=' :: "b".data) = ("a".data, "b".data) ∧
    segPair ("a".data) = ("a".data, []) :=
  C5_amended ["x".data, "y=z".data] "a".data "b".data "c".data
    (by decide) (by decide) (by decide) (by decide)

/-- Claim C6: `badge-info=;subscriber=0;turbo=0` parses to exactly the
map {badge-info → "", subscriber → "0", turbo → "0"}; and in general a
lookup in the collected map returns the value of the LAST pair carrying
that key (map overwrite semantics, shown concretely on `a=1;a=2`). -/
theorem C6_tag_map :
    parse_tags ("badge-info=;subscriber=0;turbo=0".data) =
      [("badge-info".data, []), ("subscriber".data, "0".data),
        ("turbo".data, "0".data)] ∧
    (∀ ts k : List Char,
      mapLookup (parse_tags ts) k = lastValue (tagPairs ts) k) ∧
    mapLookup (parse_tags ("a=1;a=2".data)) ("a".data) = some ("2".data) :=
  ⟨by decide, fun ts k => mapLookup_hashMapCollect (tagPairs ts) k, by decide⟩

/-- Claim C7: a well-formed line with verb `JOIN` (resp. `PART`) parses
to `Join` (resp. `Part`) carrying only the prefix author, whatever the
trailing content after the verb is. -/
theorem C7_join_part (name info rest : List Char)
    (hn1 : '!' ∉ name) (hn2 : ' ' ∉ name) (hi : ' ' ∉ info) :
    eventContentNew (':' :: name ++ '!' :: info ++ ' ' :: "JOIN".data ++
        ' ' :: rest) = .ok (some (.Join name)) ∧
    eventContentNew (':' :: name ++ '!' :: info ++ ' ' :: "PART".data ++
        ' ' :: rest) = .ok (some (.Part name)) := by
  constructor
  · rw [parse_to_verb name info ("JOIN".data) rest hn1 hn2 hi (by decide)]
    rw [if_neg (by decide), if_pos rfl]
  · rw [parse_to_verb name info ("PART".data) rest hn1 hn2 hi (by decide)]
    rw [if_neg (by decide), if_neg (by decide), if_pos rfl]

/-- Witness for C7: the spec's end-to-end example
`:carkhy!carkhy@carkhy.tmi.twitch.tv JOIN #captaincallback`. -/
theorem C7_join_part_witness :
    eventContentNew (':' :: "carkhy".data ++ '!' ::
        "carkhy@carkhy.tmi.twitch.tv".data ++ ' ' :: "JOIN".data ++
        ' ' :: "#captaincallback".data) = .ok (some (.Join "carkhy".data)) :=
  (C7_join_part "carkhy".data "carkhy@carkhy.tmi.twitch.tv".data
    "#captaincallback".data (by decide) (by decide) (by decide)).1

/-- Claim C8: a line whose first character is neither `@` nor `:`
produces no event; in particular the keep-alive `PING :tmi.twitch.tv`. -/
theorem C8_bad_first_char :
    (∀ (c : Char) (cs : List Char), ¬ c = '@' → ¬ c = ':' →
      eventContentNew (c :: cs) = .ok none) ∧
    eventContentNew ("PING :tmi.twitch.tv".data) = .ok none := by
  constructor
  · intro c cs h1 h2
    unfold eventContentNew charIndices
    simp only [charIndicesAux, eventLoop, if_neg h1, if_neg h2]
  · rfl

/-- Witness for C8 at the `PING` keep-alive line. -/
theorem C8_bad_first_char_witness :
    eventContentNew ('P' :: "ING :tmi.twitch.tv".data) = .ok none :=
  C8_bad_first_char.1 'P' ("ING :tmi.twitch.tv".data) (by decide) (by decide)

/-- Claim C9: `EventContent::new` is deterministic: the embedding is a
pure function of the input line (the loop threads no state between
calls), so parsing the same line twice yields equal results. -/
theorem C9_deterministic (msg : List Char) :
    eventContentNew msg = eventContentNew msg := rfl

/-- Claim C10: `EventContent::new` and `Command::new` are total on every
input, multi-byte characters included: every byte-range slice they take
lies on character boundaries, so the model never reaches the panic
marker — both always return `.ok` of an Option, as the signatures in
the code promise. -/
theorem C10_total :
    (∀ msg : List Char, ∃ r, eventContentNew msg = .ok r) ∧
    (∀ text un : List Char, ∃ r, commandNew text un = .ok r) := by
  constructor
  · intro msg
    have h := eventLoop_no_panic msg msg [] .Start [] 0 []
      (by simp) (fun _ => rfl) (fun habs => absurd rfl habs)
      (fun habs => absurd habs (by decide))
    unfold eventContentNew charIndices
    have e : utf8Len ([] : List Char) = 0 := rfl
    rw [e] at h
    exact h
  · exact commandNew_no_panic

end TwitchBotanist
